import Mathlib

/-!
Verification of the hierarchical triangle rasterization pipeline of `src/rasterize.cuh`
(`rasterize_layer_kernel`, `rasterize_reduce_kernel`, `rasterize_arg_reduce_kernel`,
`rasterize_tris`).

Modelling conventions:
* float arithmetic is modelled exactly over `ℚ` (the claims under study are about the
  algorithmic structure, thresholds, minima and tie-breaks, all of which the code computes
  with the same formulas both places they appear);
* `gridDist` stores squared distances: the code stores `min(dist, sqrt(d2))` with sentinel
  `1e9`; we store `min(dist², d2)` with sentinel `1e18 = (1e9)²`.  Since `sqrt` is a strictly
  monotone injection on nonnegative reals, every comparison (`atomicMin`, the `==` test of
  `rasterize_arg_reduce_kernel`, the sentinel test) is preserved by this encoding;
* the GPU kernels are modelled by their canonical sequential semantics plus an explicit
  scheduled semantics (tiles, arrival orders) where a claim is about scheduling;
* `geometry.cuh`, `grid.cuh` and `commons.cuh` are not under `src/`; the definitions taken
  from them are modelled from the spec and marked as such.
-/

set_option maxHeartbeats 1000000
set_option maxRecDepth 40000

namespace CuMesh

/-- A 3D point with rational coordinates (exact model of `float3`). -/
structure V3 where
  x : ℚ
  y : ℚ
  z : ℚ
deriving DecidableEq, Inhabited

/-- A triangle: the three vertices `tris[3t]`, `tris[3t+1]`, `tris[3t+2]`. -/
abbrev Tri := V3 × V3 × V3

/-- Modelled from the spec: `grid.cuh` (`pack_id`) is not under `src/`.  Spec §4.1 requires a
bijective packing of coordinates in `[0, 2^10)` into one key; we pack little-endian base 2^10. -/
def pack_id (v : ℕ × ℕ × ℕ) : ℕ := v.1 + 1024 * v.2.1 + 1024 * 1024 * v.2.2

/-- Modelled from the spec: `grid.cuh` (`unpack_id`), the inverse of `pack_id` on 10-bit
coordinates. -/
def unpack_id (c : ℕ) : ℕ × ℕ × ℕ := (c % 1024, c / 1024 % 1024, c / 1024 / 1024 % 1024)

/-- Modelled from the spec: `grid.cuh` (`to_gidx`); spec §4.1 defines the linear offset
`to_linear(x,y,z,N) = x + N·y + N²·z`. -/
def to_gidx (v : ℕ × ℕ × ℕ) (N : ℕ) : ℕ := v.1 + N * v.2.1 + N * N * v.2.2

/-- Center of cell `v` of the `N³` grid: `(v + 0.5)/N` (rasterize.cuh lines 40 and 77). -/
def cellCenter (v : ℕ × ℕ × ℕ) (N : ℕ) : V3 :=
  ⟨((v.1 : ℚ) + 1/2) / N, ((v.2.1 : ℚ) + 1/2) / N, ((v.2.2 : ℚ) + 1/2) / N⟩

/-- Task decode (rasterize.cuh line 31): `t = g / S³`. -/
def taskT (S g : ℕ) : ℕ := g / (S * S * S)

/-- Task decode (rasterize.cuh lines 27-30): the `(i,j,k)` child offset of task `g`,
`mo = g % S³`, `i = mo % S`, `j = (mo/S) % S`, `k = (mo/S²) % S`. -/
def taskIJK (S g : ℕ) : ℕ × ℕ × ℕ :=
  (g % (S * S * S) % S, g % (S * S * S) / S % S, g % (S * S * S) / (S * S) % S)

/-- The child cell of task `g`: `nxyz = unpack_id(grid[t]) * S + (i,j,k)` (line 39). -/
def childCell (grid : List ℕ) (S g : ℕ) : ℕ × ℕ × ℕ :=
  ((unpack_id (grid.getD (taskT S g) 0)).1 * S + (taskIJK S g).1,
   (unpack_id (grid.getD (taskT S g) 0)).2.1 * S + (taskIJK S g).2.1,
   (unpack_id (grid.getD (taskT S g) 0)).2.2 * S + (taskIJK S g).2.2)

/-- The inclusion test of `rasterize_layer_kernel` (lines 42-43): `thresh = 0.87/N + band`
and the squared point-to-triangle distance at the child-cell center is compared strictly
against `thresh²`.  `d2` stands for `point_to_tri_dist_sqr` (see `TriDistSpec`). -/
def taskPass (d2 : Tri → V3 → ℚ) (tris : List Tri) (idx grid : List ℕ) (S N : ℕ)
    (band : ℚ) (g : ℕ) : Bool :=
  decide (d2 (tris.getD (idx.getD (taskT S g) 0) default) (cellCenter (childCell grid S g) N)
    < (87/100 / N + band) ^ 2)

/-- The pair written for a passing task (lines 50-52): `(idx[t], pack_id(nxyz))`. -/
def taskVal (idx grid : List ℕ) (S g : ℕ) : ℕ × ℕ :=
  (idx.getD (taskT S g) 0, pack_id (childCell grid S g))

/-- Canonical (scheduling-independent) model of `rasterize_layer_kernel`: one task per
`g < S³·M`, the passing tasks emit `(idx[t], pack_id(child))`.  The scheduled two-pass
compaction is modelled separately below and shown to produce a permutation of this list. -/
def rasterize_layer_kernel (d2 : Tri → V3 → ℚ) (tris : List Tri) (idx grid : List ℕ)
    (S N : ℕ) (band : ℚ) : List (ℕ × ℕ) :=
  (List.range (S * S * S * idx.length)).filterMap fun g =>
    if taskPass d2 tris idx grid S N band g then some (taskVal idx grid S g) else none

/-- Linear grid offset of a candidate (line 78): `to_gidx(unpack_id(grid[g]), N)`. -/
def candAccess (c : ℕ × ℕ) (N : ℕ) : ℕ := to_gidx (unpack_id c.2) N

/-- Squared distance contributed by a candidate (line 85, before `sqrt`). -/
def candDist2 (d2 : Tri → V3 → ℚ) (tris : List Tri) (c : ℕ × ℕ) (N : ℕ) : ℚ :=
  d2 (tris.getD c.1 default) (cellCenter (unpack_id c.2) N)

/-- Sequential model of `rasterize_reduce_kernel` (lines 65-86): for each candidate,
`atomicMin(dist[access], sqrt(d2))`, in squared representation. -/
def rasterize_reduce_kernel (d2 : Tri → V3 → ℚ) (tris : List Tri) (cands : List (ℕ × ℕ))
    (N : ℕ) (dist : ℕ → ℚ) : ℕ → ℚ :=
  cands.foldl (fun D c =>
    Function.update D (candAccess c N) (min (D (candAccess c N)) (candDist2 d2 tris c N))) dist

/-- Sequential model of `rasterize_arg_reduce_kernel` (lines 88-122): for each candidate,
if its distance equals the (fully reduced) `gridDist` at its cell, `atomicMax(repIdx, t)`.
The kernel is launched after the reduce kernel on the same stream, so it reads the final
`dist`. -/
def rasterize_arg_reduce_kernel (d2 : Tri → V3 → ℚ) (tris : List Tri) (cands : List (ℕ × ℕ))
    (N : ℕ) (dist : ℕ → ℚ) (rep : ℕ → ℤ) : ℕ → ℤ :=
  cands.foldl (fun Rp c =>
    if candDist2 d2 tris c N = dist (candAccess c N) then
      Function.update Rp (candAccess c N) (max (Rp (candAccess c N)) (c.1 : ℤ))
    else Rp) rep

/-- The two-level plan of `rasterize_tris` (line 142): `La = R ≥ 256 ? 16 : 8`. -/
def LaOf (R : ℕ) : ℕ := if 256 ≤ R then 16 else 8

/-- Factor `Lb = R / La` (line 143). -/
def LbOf (R : ℕ) : ℕ := R / LaOf R

/-- The output grids of `rasterize_tris`: `gridDist` (squared representation, sentinel
`1e18 = (1e9)²`) and `gridIdx` (initialized to `-1`), both indexed linearly. -/
structure RasterizeResult where
  gridDist : ℕ → ℚ
  gridIdx : ℕ → ℤ

/-- Seed candidates (lines 150-153): `idx = arange(F)`. -/
def seedIdx (F : ℕ) : List ℕ := List.range F

/-- Seed candidates: `grid = fill(pack_id(0,0,0))`. -/
def seedGrid (F : ℕ) : List ℕ := List.replicate F (pack_id (0, 0, 0))

/-- Layer a (lines 155-166): subdivision `La` at target resolution `La`. -/
def layerA (d2 : Tri → V3 → ℚ) (tris : List Tri) (R : ℕ) (band : ℚ) : List (ℕ × ℕ) :=
  rasterize_layer_kernel d2 tris (seedIdx tris.length) (seedGrid tris.length)
    (LaOf R) (LaOf R) band

/-- Layer b (lines 176-192): subdivision `Lb` at target resolution `R`; its output is the
final candidate list fed to the reduction kernels. -/
def finalCands (d2 : Tri → V3 → ℚ) (tris : List Tri) (R : ℕ) (band : ℚ) : List (ℕ × ℕ) :=
  rasterize_layer_kernel d2 tris ((layerA d2 tris R band).map Prod.fst)
    ((layerA d2 tris R band).map Prod.snd) (LbOf R) R band

/-- The computation performed by `rasterize_tris` after the divisibility assertion
(lines 145-213): fill `gridDist` with the sentinel and `gridIdx` with `-1`, then run the
reduce and arg-reduce kernels over the final candidate list. -/
def rasterizeD (d2 : Tri → V3 → ℚ) (tris : List Tri) (R : ℕ) (band : ℚ) : RasterizeResult :=
  ⟨rasterize_reduce_kernel d2 tris (finalCands d2 tris R band) R (fun _ => 10 ^ 18),
   rasterize_arg_reduce_kernel d2 tris (finalCands d2 tris R band) R
     (rasterize_reduce_kernel d2 tris (finalCands d2 tris R band) R (fun _ => 10 ^ 18))
     (fun _ => -1)⟩

/-- Entry point `rasterize_tris` (lines 124-224).  The only input validation the code performs is
`assert(R % La == 0)` (line 144), modelled as returning `none`; there is no check of the
range of `R` nor of the sign of `band`. -/
def rasterize_tris (d2 : Tri → V3 → ℚ) (tris : List Tri) (R : ℕ) (band : ℚ) :
    Option RasterizeResult :=
  if R % LaOf R = 0 then some (rasterizeD d2 tris R band) else none

/-- Euclidean 3-space, the ambient space of the real geometry. -/
abbrev E3 := EuclideanSpace ℝ (Fin 3)

/-- Real embedding of a rational point (specification side only, never executed). -/
noncomputable def toE3 (p : V3) : E3 :=
  (WithLp.equiv 2 (Fin 3 → ℝ)).symm ![(p.x : ℝ), (p.y : ℝ), (p.z : ℝ)]

/-- The closed triangle spanned by the three vertices, as a subset of `E3`. -/
def triHull (tr : Tri) : Set E3 := convexHull ℝ {toE3 tr.1, toE3 tr.2.1, toE3 tr.2.2}

/-- Modelled from the spec: `geometry.cuh` (`point_to_tri_dist_sqr`) is not under `src/`.
Spec §4.2 defines it as the squared Euclidean distance from the point to the closed
triangle; `TriDistSpec d2 tris` states that the parameter `d2` is that function on the
triangles of `tris`. -/
def TriDistSpec (d2 : Tri → V3 → ℚ) (tris : List Tri) : Prop :=
  ∀ tr ∈ tris, ∀ p : V3, ((d2 tr p : ℚ) : ℝ) = Metric.infDist (toE3 p) (triHull tr) ^ 2

/-! ### Codec lemmas -/

theorem unpack_pack {v : ℕ × ℕ × ℕ} (h1 : v.1 < 1024) (h2 : v.2.1 < 1024)
    (h3 : v.2.2 < 1024) : unpack_id (pack_id v) = v := by
  obtain ⟨x, y, z⟩ := v
  simp only [pack_id, unpack_id, Prod.mk.injEq] at *
  refine ⟨?_, ?_, ?_⟩ <;> omega

theorem to_gidx_inj {v w : ℕ × ℕ × ℕ} {N : ℕ}
    (hv1 : v.1 < N) (hv2 : v.2.1 < N) (hv3 : v.2.2 < N)
    (hw1 : w.1 < N) (hw2 : w.2.1 < N) (hw3 : w.2.2 < N)
    (h : to_gidx v N = to_gidx w N) : v = w := by
  obtain ⟨a, b, c⟩ := v
  obtain ⟨d, e, f⟩ := w
  simp only [to_gidx] at *
  have hN : 0 < N := lt_of_le_of_lt (Nat.zero_le a) hv1
  have regroup : ∀ p q r : ℕ, p + N * q + N * N * r = p + N * (q + N * r) := by
    intro p q r; ring
  rw [regroup, regroup] at h
  have h1 : a = d := by
    have := congrArg (· % N) h
    simpa [Nat.add_mul_mod_self_left, Nat.mod_eq_of_lt hv1, Nat.mod_eq_of_lt hw1] using this
  have key2 : b + N * c = e + N * f := by
    have := congrArg (· / N) h
    simpa [Nat.add_mul_div_left _ _ hN, Nat.div_eq_of_lt hv1, Nat.div_eq_of_lt hw1] using this
  have h2 : b = e := by
    have := congrArg (· % N) key2
    simpa [Nat.add_mul_mod_self_left, Nat.mod_eq_of_lt hv2, Nat.mod_eq_of_lt hw2] using this
  have h3 : c = f := by
    have := congrArg (· / N) key2
    simpa [Nat.add_mul_div_left _ _ hN, Nat.div_eq_of_lt hv2, Nat.div_eq_of_lt hw2] using this
  simp [h1, h2, h3]

/-- Encoding of a (candidate, child-offset) pair into a task id, the inverse of the decode
performed at rasterize.cuh lines 27-31. -/
def encodeTask (S t : ℕ) (o : ℕ × ℕ × ℕ) : ℕ :=
  t * (S * S * S) + (o.2.2 * (S * S) + o.2.1 * S + o.1)

theorem offset_lt_cube {S x y z : ℕ} (h1 : x < S) (h2 : y < S) (h3 : z < S) :
    z * (S * S) + y * S + x < S * S * S := by
  calc z * (S * S) + y * S + x
      < z * (S * S) + y * S + S := Nat.add_lt_add_left h1 _
    _ = z * (S * S) + (y + 1) * S := by ring
    _ ≤ z * (S * S) + S * S := Nat.add_le_add_left (Nat.mul_le_mul_right _ h2) _
    _ = (z + 1) * (S * S) := by ring
    _ ≤ S * (S * S) := Nat.mul_le_mul_right _ h3
    _ = S * S * S := by ring

theorem taskT_encode {S : ℕ} (t : ℕ) {o : ℕ × ℕ × ℕ}
    (h1 : o.1 < S) (h2 : o.2.1 < S) (h3 : o.2.2 < S) : taskT S (encodeTask S t o) = t := by
  obtain ⟨x, y, z⟩ := o
  have hmo : z * (S * S) + y * S + x < S * S * S := offset_lt_cube h1 h2 h3
  have hK : 0 < S * S * S := lt_of_le_of_lt (Nat.zero_le _) hmo
  simp only [encodeTask, taskT]
  rw [Nat.add_comm, Nat.mul_comm t (S * S * S), Nat.add_mul_div_left _ _ hK,
    Nat.div_eq_of_lt hmo, Nat.zero_add]

theorem taskIJK_encode {S : ℕ} (hS : 0 < S) (t : ℕ) {o : ℕ × ℕ × ℕ}
    (h1 : o.1 < S) (h2 : o.2.1 < S) (h3 : o.2.2 < S) : taskIJK S (encodeTask S t o) = o := by
  obtain ⟨x, y, z⟩ := o
  have hmo : z * (S * S) + y * S + x < S * S * S := offset_lt_cube h1 h2 h3
  have hmod : encodeTask S t (x, y, z) % (S * S * S) = z * (S * S) + y * S + x := by
    simp only [encodeTask]
    rw [Nat.add_comm, Nat.mul_comm t (S * S * S), Nat.add_mul_mod_self_left,
      Nat.mod_eq_of_lt hmo]
  have e1 : z * (S * S) + y * S + x = x + S * (y + S * z) := by ring
  have hx : (z * (S * S) + y * S + x) % S = x := by
    rw [e1, Nat.add_mul_mod_self_left, Nat.mod_eq_of_lt h1]
  have hdivS : (z * (S * S) + y * S + x) / S = y + S * z := by
    rw [e1, Nat.add_mul_div_left _ _ hS, Nat.div_eq_of_lt h1, Nat.zero_add]
  have hy : (z * (S * S) + y * S + x) / S % S = y := by
    rw [hdivS, Nat.add_mul_mod_self_left, Nat.mod_eq_of_lt h2]
  have hz : (z * (S * S) + y * S + x) / (S * S) % S = z := by
    have e2 : z * (S * S) + y * S + x = (y * S + x) + (S * S) * z := by ring
    have hsmall : y * S + x < S * S := by
      calc y * S + x < y * S + S := Nat.add_lt_add_left h1 _
        _ = (y + 1) * S := by ring
        _ ≤ S * S := Nat.mul_le_mul_right _ h2
    rw [e2, Nat.add_mul_div_left _ _ (Nat.mul_pos hS hS), Nat.div_eq_of_lt hsmall,
      Nat.zero_add, Nat.mod_eq_of_lt h3]
  simp only [taskIJK, hmod, hx, hy, hz]

theorem encodeTask_lt {S M t : ℕ} (ht : t < M) {o : ℕ × ℕ × ℕ}
    (h1 : o.1 < S) (h2 : o.2.1 < S) (h3 : o.2.2 < S) : encodeTask S t o < S * S * S * M := by
  obtain ⟨x, y, z⟩ := o
  have hmo : z * (S * S) + y * S + x < S * S * S := offset_lt_cube h1 h2 h3
  calc encodeTask S t (x, y, z) < t * (S * S * S) + S * S * S := Nat.add_lt_add_left hmo _
    _ = (t + 1) * (S * S * S) := by ring
    _ ≤ M * (S * S * S) := Nat.mul_le_mul_right _ ht
    _ = S * S * S * M := by ring

theorem decode_lt {S M g : ℕ} (hS : 0 < S) (hg : g < S * S * S * M) :
    taskT S g < M ∧ (taskIJK S g).1 < S ∧ (taskIJK S g).2.1 < S ∧ (taskIJK S g).2.2 < S := by
  have hK : 0 < S * S * S := Nat.mul_pos (Nat.mul_pos hS hS) hS
  exact ⟨(Nat.div_lt_iff_lt_mul hK).mpr (by rwa [Nat.mul_comm] at hg),
    Nat.mod_lt _ hS, Nat.mod_lt _ hS, Nat.mod_lt _ hS⟩

theorem encode_decode {S : ℕ} (hS : 0 < S) (g : ℕ) :
    encodeTask S (taskT S g) (taskIJK S g) = g := by
  have hK : 0 < S * S * S := Nat.mul_pos (Nat.mul_pos hS hS) hS
  have hmo : g % (S * S * S) < S * S * S := Nat.mod_lt _ hK
  have hdd : g % (S * S * S) / S / S = g % (S * S * S) / (S * S) := Nat.div_div_eq_div_mul _ _ _
  have hz : g % (S * S * S) / (S * S) % S = g % (S * S * S) / (S * S) :=
    Nat.mod_eq_of_lt (Nat.div_lt_of_lt_mul hmo)
  have step1 : S * (g % (S * S * S) / S) + g % (S * S * S) % S = g % (S * S * S) :=
    Nat.div_add_mod _ _
  have step2 : S * (g % (S * S * S) / S / S) + g % (S * S * S) / S % S =
      g % (S * S * S) / S := Nat.div_add_mod _ _
  have step3 : S * S * S * (g / (S * S * S)) + g % (S * S * S) = g := Nat.div_add_mod _ _
  simp only [encodeTask, taskT, taskIJK, hz]
  calc g / (S * S * S) * (S * S * S) +
        (g % (S * S * S) / (S * S) * (S * S) + g % (S * S * S) / S % S * S +
          g % (S * S * S) % S)
      = S * S * S * (g / (S * S * S)) +
        ((S * (g % (S * S * S) / S / S) + g % (S * S * S) / S % S) * S +
          g % (S * S * S) % S) := by rw [hdd]; ring
    _ = S * S * S * (g / (S * S * S)) +
        (S * (g % (S * S * S) / S) + g % (S * S * S) % S) := by rw [step2]; ring
    _ = S * S * S * (g / (S * S * S)) + g % (S * S * S) := by rw [step1]
    _ = g := step3

/-! ### Fold lemmas for min and max (the semantics of the atomic reductions) -/

theorem foldl_min_le_init {α : Type} [LinearOrder α] (l : List α) (a : α) :
    l.foldl min a ≤ a := by
  induction l generalizing a with
  | nil => exact le_refl a
  | cons x xs ih => exact le_trans (ih (min a x)) (min_le_left a x)

theorem foldl_min_cases {α : Type} [LinearOrder α] (l : List α) (a : α) :
    l.foldl min a = a ∨ l.foldl min a ∈ l := by
  induction l generalizing a with
  | nil => exact Or.inl rfl
  | cons y ys ih =>
    rcases ih (min a y) with h | h
    · rcases min_choice a y with h2 | h2
      · exact Or.inl (by rw [List.foldl_cons, h, h2])
      · exact Or.inr (by rw [List.foldl_cons, h, h2]; exact List.mem_cons_self y ys)
    · exact Or.inr (List.mem_cons_of_mem y h)

theorem foldl_max_le {α : Type} [LinearOrder α] {l : List α} {a b : α} (ha : a ≤ b)
    (h : ∀ x ∈ l, x ≤ b) : l.foldl max a ≤ b := by
  induction l generalizing a with
  | nil => exact ha
  | cons y ys ih =>
    exact ih (max_le ha (h y (List.mem_cons_self y ys)))
      (fun x hx => h x (List.mem_cons_of_mem y hx))

theorem init_le_foldl_max {α : Type} [LinearOrder α] (l : List α) (a : α) :
    a ≤ l.foldl max a := by
  induction l generalizing a with
  | nil => exact le_refl a
  | cons x xs ih => exact le_trans (le_max_left a x) (ih (max a x))

theorem le_foldl_max_mem {α : Type} [LinearOrder α] {l : List α} {x : α} (hx : x ∈ l) (a : α) :
    x ≤ l.foldl max a := by
  induction l generalizing a with
  | nil => cases hx
  | cons y ys ih =>
    rcases List.mem_cons.mp hx with h | h
    · subst h
      exact le_trans (le_max_right a x) (init_le_foldl_max ys (max a x))
    · exact ih h (max a y)

theorem foldl_max_cases {α : Type} [LinearOrder α] (l : List α) (a : α) :
    l.foldl max a = a ∨ l.foldl max a ∈ l := by
  induction l generalizing a with
  | nil => exact Or.inl rfl
  | cons y ys ih =>
    rcases ih (max a y) with h | h
    · rcases max_choice a y with h2 | h2
      · exact Or.inl (by rw [List.foldl_cons, h, h2])
      · exact Or.inr (by rw [List.foldl_cons, h, h2]; exact List.mem_cons_self y ys)
    · exact Or.inr (List.mem_cons_of_mem y h)

/-! ### Pointwise evaluation of the reduction kernels -/

theorem reduce_eval (d2 : Tri → V3 → ℚ) (tris : List Tri) (cands : List (ℕ × ℕ)) (N : ℕ)
    (D : ℕ → ℚ) (a : ℕ) :
    rasterize_reduce_kernel d2 tris cands N D a =
      ((cands.filter fun c => candAccess c N == a).map fun c => candDist2 d2 tris c N).foldl
        min (D a) := by
  induction cands generalizing D with
  | nil => rfl
  | cons c cs ih =>
    rw [show rasterize_reduce_kernel d2 tris (c :: cs) N D =
        rasterize_reduce_kernel d2 tris cs N
          (Function.update D (candAccess c N)
            (min (D (candAccess c N)) (candDist2 d2 tris c N))) from rfl, ih]
    by_cases h : candAccess c N = a
    · simp [List.filter_cons, List.foldl_cons, h, Function.update_apply]
    · simp [List.filter_cons, List.foldl_cons, h, Function.update_apply, Ne.symm h]

theorem arg_eval (d2 : Tri → V3 → ℚ) (tris : List Tri) (cands : List (ℕ × ℕ)) (N : ℕ)
    (dist : ℕ → ℚ) (rep : ℕ → ℤ) (a : ℕ) :
    rasterize_arg_reduce_kernel d2 tris cands N dist rep a =
      ((cands.filter fun c =>
          candAccess c N == a && candDist2 d2 tris c N == dist (candAccess c N)).map
        fun c => (c.1 : ℤ)).foldl max (rep a) := by
  induction cands generalizing rep with
  | nil => rfl
  | cons c cs ih =>
    rw [show rasterize_arg_reduce_kernel d2 tris (c :: cs) N dist rep =
        rasterize_arg_reduce_kernel d2 tris cs N dist
          (if candDist2 d2 tris c N = dist (candAccess c N) then
            Function.update rep (candAccess c N)
              (max (rep (candAccess c N)) (c.1 : ℤ))
          else rep) from rfl, ih]
    by_cases hd : candDist2 d2 tris c N = dist (candAccess c N)
    · by_cases h : candAccess c N = a
      · simp [List.filter_cons, List.foldl_cons, h, hd, Function.update_apply]
      · simp [List.filter_cons, List.foldl_cons, h, hd, Function.update_apply, Ne.symm h]
    · by_cases h : candAccess c N = a
      · rw [h] at hd
        simp [List.filter_cons, List.foldl_cons, h, hd]
      · simp [List.filter_cons, List.foldl_cons, h, hd]

instance : RightCommutative (min : ℚ → ℚ → ℚ) := ⟨fun b x y => min_right_comm b x y⟩

instance : RightCommutative (max : ℤ → ℤ → ℤ) :=
  ⟨fun b x y => by rw [max_assoc, max_comm x y, ← max_assoc]⟩

/-- The child cell obtained from the packed parent key `gk` by subdivision `S` and
offset `o` (the spec's `scale(key, S, (i,j,k))`). -/
def scaleCell (gk : ℕ) (S : ℕ) (o : ℕ × ℕ × ℕ) : ℕ × ℕ × ℕ :=
  ((unpack_id gk).1 * S + o.1, (unpack_id gk).2.1 * S + o.2.1, (unpack_id gk).2.2 * S + o.2.2)

theorem childCell_encode {S : ℕ} (hS : 0 < S) (grid : List ℕ) (n : ℕ) {o : ℕ × ℕ × ℕ}
    (h1 : o.1 < S) (h2 : o.2.1 < S) (h3 : o.2.2 < S) :
    childCell grid S (encodeTask S n o) = scaleCell (grid.getD n 0) S o := by
  unfold childCell scaleCell
  rw [taskT_encode n h1 h2 h3, taskIJK_encode hS n h1 h2 h3]

theorem taskVal_encode {S : ℕ} (hS : 0 < S) (idx grid : List ℕ) (n : ℕ) {o : ℕ × ℕ × ℕ}
    (h1 : o.1 < S) (h2 : o.2.1 < S) (h3 : o.2.2 < S) :
    taskVal idx grid S (encodeTask S n o) =
      (idx.getD n 0, pack_id (scaleCell (grid.getD n 0) S o)) := by
  unfold taskVal
  rw [taskT_encode n h1 h2 h3, childCell_encode hS grid n h1 h2 h3]

theorem mem_layer_iff {d2 : Tri → V3 → ℚ} {tris : List Tri} {idx grid : List ℕ} {S N : ℕ}
    {band : ℚ} (hS : 0 < S) {p : ℕ × ℕ} :
    p ∈ rasterize_layer_kernel d2 tris idx grid S N band ↔
    ∃ n, n < idx.length ∧ ∃ o : ℕ × ℕ × ℕ, o.1 < S ∧ o.2.1 < S ∧ o.2.2 < S ∧
      p = (idx.getD n 0, pack_id (scaleCell (grid.getD n 0) S o)) ∧
      d2 (tris.getD (idx.getD n 0) default) (cellCenter (scaleCell (grid.getD n 0) S o) N) <
        (87/100 / N + band) ^ 2 := by
  unfold rasterize_layer_kernel
  rw [List.mem_filterMap]
  constructor
  · rintro ⟨g, hg, hsome⟩
    rw [List.mem_range] at hg
    by_cases hpass : taskPass d2 tris idx grid S N band g = true
    · rw [if_pos hpass] at hsome
      obtain ⟨hT, h1, h2, h3⟩ := decode_lt hS hg
      simp only [taskPass, decide_eq_true_eq] at hpass
      exact ⟨taskT S g, hT, taskIJK S g, h1, h2, h3, (Option.some_inj.mp hsome).symm, hpass⟩
    · rw [if_neg hpass] at hsome
      cases hsome
  · rintro ⟨n, hn, o, h1, h2, h3, hp, hd⟩
    refine ⟨encodeTask S n o, List.mem_range.mpr (encodeTask_lt hn h1 h2 h3), ?_⟩
    have hpass : taskPass d2 tris idx grid S N band (encodeTask S n o) = true := by
      simp only [taskPass, decide_eq_true_eq, childCell_encode hS grid n h1 h2 h3,
        taskT_encode n h1 h2 h3]
      exact hd
    rw [if_pos hpass, taskVal_encode hS idx grid n h1 h2 h3, hp]

/-! ### Driver-level membership characterization -/

/-- The inclusion predicate of the layer kernel for triangle index `t` at cell `v` of the
`N³` grid (rasterize.cuh lines 42-43). -/
def passAt (d2 : Tri → V3 → ℚ) (tris : List Tri) (t : ℕ) (v : ℕ × ℕ × ℕ) (N : ℕ)
    (band : ℚ) : Prop :=
  d2 (tris.getD t default) (cellCenter v N) < (87/100 / N + band) ^ 2

/-- Valid voxel coordinates of the `R³` output grid. -/
def VoxOK (R : ℕ) (v : ℕ × ℕ × ℕ) : Prop := v.1 < R ∧ v.2.1 < R ∧ v.2.2 < R

/-- The layer-a ancestor cell of voxel `v` (componentwise division by `Lb`). -/
def parentOf (v : ℕ × ℕ × ℕ) (Lb : ℕ) : ℕ × ℕ × ℕ := (v.1 / Lb, v.2.1 / Lb, v.2.2 / Lb)

theorem LaOf_pos (R : ℕ) : 0 < LaOf R := by
  unfold LaOf; split <;> norm_num

theorem LaOf_le (R : ℕ) : LaOf R ≤ 16 := by
  unfold LaOf; split <;> norm_num

theorem seedIdx_length (F : ℕ) : (seedIdx F).length = F := by simp [seedIdx]

theorem seedIdx_getD {F n : ℕ} (hn : n < F) : (seedIdx F).getD n 0 = n := by
  rw [List.getD_eq_getElem _ _ (by simpa [seedIdx] using hn)]
  simp [seedIdx]

theorem seedGrid_getD {F n : ℕ} (hn : n < F) : (seedGrid F).getD n 0 = pack_id (0, 0, 0) := by
  rw [List.getD_eq_getElem _ _ (by simpa [seedGrid] using hn)]
  simp [seedGrid]

theorem scaleCell_zero (S : ℕ) (o : ℕ × ℕ × ℕ) : scaleCell (pack_id (0, 0, 0)) S o = o := by
  obtain ⟨x, y, z⟩ := o
  simp [scaleCell, pack_id, unpack_id]

theorem mem_layerA_iff {d2 : Tri → V3 → ℚ} {tris : List Tri} {R : ℕ} {band : ℚ} {t c : ℕ} :
    (t, c) ∈ layerA d2 tris R band ↔
    t < tris.length ∧ ∃ o : ℕ × ℕ × ℕ, o.1 < LaOf R ∧ o.2.1 < LaOf R ∧ o.2.2 < LaOf R ∧
      c = pack_id o ∧ passAt d2 tris t o (LaOf R) band := by
  unfold layerA
  rw [mem_layer_iff (LaOf_pos R)]
  rw [seedIdx_length]
  constructor
  · rintro ⟨n, hn, o, h1, h2, h3, hp, hd⟩
    rw [seedIdx_getD hn, seedGrid_getD hn, scaleCell_zero] at hp hd
    obtain ⟨rfl, rfl⟩ := Prod.mk.injEq .. ▸ hp
    exact ⟨hn, o, h1, h2, h3, rfl, hd⟩
  · rintro ⟨ht, o, h1, h2, h3, hc, hd⟩
    refine ⟨t, ht, o, h1, h2, h3, ?_, ?_⟩
    · rw [seedIdx_getD ht, seedGrid_getD ht, scaleCell_zero, hc]
    · rw [seedIdx_getD ht, seedGrid_getD ht, scaleCell_zero]
      exact hd

theorem R_factor {R : ℕ} (hdvd : R % LaOf R = 0) : LaOf R * LbOf R = R :=
  Nat.mul_div_cancel' (Nat.dvd_of_mod_eq_zero hdvd)

theorem LbOf_pos {R : ℕ} (hR1 : 1 ≤ R) (hdvd : R % LaOf R = 0) : 0 < LbOf R := by
  rcases Nat.eq_zero_or_pos (LbOf R) with h0 | h
  · have := R_factor hdvd
    rw [h0, Nat.mul_zero] at this
    omega
  · exact h

theorem child_div {Lb a b : ℕ} (hLb : 0 < Lb) (hb : b < Lb) : (a * Lb + b) / Lb = a := by
  rw [show a * Lb + b = b + Lb * a from by ring, Nat.add_mul_div_left _ _ hLb,
    Nat.div_eq_of_lt hb, Nat.zero_add]

theorem child_reassemble {Lb a : ℕ} : a / Lb * Lb + a % Lb = a := by
  rw [Nat.mul_comm]
  exact Nat.div_add_mod a Lb

theorem mem_finalCands_iff {d2 : Tri → V3 → ℚ} {tris : List Tri} {R : ℕ} {band : ℚ}
    (hR1 : 1 ≤ R) (hR2 : R ≤ 1024) (hdvd : R % LaOf R = 0) {t c : ℕ} :
    (t, c) ∈ finalCands d2 tris R band ↔
    ∃ v : ℕ × ℕ × ℕ, VoxOK R v ∧ c = pack_id v ∧ t < tris.length ∧
      passAt d2 tris t (parentOf v (LbOf R)) (LaOf R) band ∧ passAt d2 tris t v R band := by
  have hLa := LaOf_pos R
  have hLa16 := LaOf_le R
  have hLb := LbOf_pos hR1 hdvd
  have hfact := R_factor (R := R) hdvd
  have hbound : ∀ x, x < LaOf R → x < 1024 := fun x hx =>
    lt_of_lt_of_le hx (le_trans hLa16 (by norm_num))
  unfold finalCands
  rw [mem_layer_iff hLb]
  constructor
  · rintro ⟨n, hn, o, h1, h2, h3, hp, hd⟩
    rw [List.length_map] at hn
    have hfst : ((layerA d2 tris R band).map Prod.fst).getD n 0 =
        ((layerA d2 tris R band).getD n (0, 0)).1 := by
      rw [List.getD_eq_getElem _ _ (by simpa using hn), List.getD_eq_getElem _ _ hn,
        List.getElem_map]
    have hsnd : ((layerA d2 tris R band).map Prod.snd).getD n 0 =
        ((layerA d2 tris R band).getD n (0, 0)).2 := by
      rw [List.getD_eq_getElem _ _ (by simpa using hn), List.getD_eq_getElem _ _ hn,
        List.getElem_map]
    rw [hfst, hsnd] at hp hd
    obtain ⟨tp, cp, hpr⟩ : ∃ tp cp, (layerA d2 tris R band).getD n (0, 0) = (tp, cp) :=
      ⟨_, _, rfl⟩
    rw [hpr] at hp hd
    have hmem : (tp, cp) ∈ layerA d2 tris R band := by
      rw [← hpr, List.getD_eq_getElem _ _ hn]
      exact List.getElem_mem hn
    obtain ⟨htF, pA, g1, g2, g3, hcp, hdp⟩ := mem_layerA_iff.mp hmem
    rw [hcp] at hp hd
    have hunpack : unpack_id (pack_id pA) = pA :=
      unpack_pack (hbound _ g1) (hbound _ g2) (hbound _ g3)
    have hscale : scaleCell (pack_id pA) (LbOf R) o =
        (pA.1 * LbOf R + o.1, pA.2.1 * LbOf R + o.2.1, pA.2.2 * LbOf R + o.2.2) := by
      simp [scaleCell, hunpack]
    rw [hscale] at hp hd
    obtain ⟨rfl, rfl⟩ := Prod.mk.injEq .. ▸ hp
    have hcomp : ∀ a b : ℕ, a < LaOf R → b < LbOf R → a * LbOf R + b < R := by
      intro a b ha hb
      calc a * LbOf R + b < a * LbOf R + LbOf R := Nat.add_lt_add_left hb _
        _ = (a + 1) * LbOf R := by ring
        _ ≤ LaOf R * LbOf R := Nat.mul_le_mul_right _ ha
        _ = R := hfact
    refine ⟨(pA.1 * LbOf R + o.1, pA.2.1 * LbOf R + o.2.1, pA.2.2 * LbOf R + o.2.2),
      ⟨hcomp _ _ g1 h1, hcomp _ _ g2 h2, hcomp _ _ g3 h3⟩, rfl, htF, ?_, hd⟩
    have hpar : parentOf (pA.1 * LbOf R + o.1, pA.2.1 * LbOf R + o.2.1,
        pA.2.2 * LbOf R + o.2.2) (LbOf R) = pA := by
      simp only [parentOf, child_div hLb h1, child_div hLb h2, child_div hLb h3]
    rw [hpar]
    exact hdp
  · rintro ⟨⟨x, y, z⟩, ⟨hv1, hv2, hv3⟩, hc, htF, hdp, hdv⟩
    have gdiv : ∀ a : ℕ, a < R → a / LbOf R < LaOf R := by
      intro a ha
      rw [Nat.div_lt_iff_lt_mul hLb]
      omega
    have hparent_mem : (t, pack_id (parentOf (x, y, z) (LbOf R))) ∈ layerA d2 tris R band :=
      mem_layerA_iff.mpr ⟨htF, parentOf (x, y, z) (LbOf R),
        gdiv _ hv1, gdiv _ hv2, gdiv _ hv3, rfl, hdp⟩
    obtain ⟨n, hn, hget⟩ := List.mem_iff_getElem.mp hparent_mem
    have hfst : ((layerA d2 tris R band).map Prod.fst).getD n 0 = t := by
      rw [List.getD_eq_getElem _ _ (by simpa using hn), List.getElem_map, hget]
    have hsnd : ((layerA d2 tris R band).map Prod.snd).getD n 0 =
        pack_id (parentOf (x, y, z) (LbOf R)) := by
      rw [List.getD_eq_getElem _ _ (by simpa using hn), List.getElem_map, hget]
    have hunpack : unpack_id (pack_id (parentOf (x, y, z) (LbOf R))) =
        parentOf (x, y, z) (LbOf R) :=
      unpack_pack (hbound _ (gdiv _ hv1)) (hbound _ (gdiv _ hv2)) (hbound _ (gdiv _ hv3))
    have hunpack2 : unpack_id (pack_id (x / LbOf R, y / LbOf R, z / LbOf R)) =
        (x / LbOf R, y / LbOf R, z / LbOf R) := by
      simpa [parentOf] using hunpack
    have hscale : scaleCell (pack_id (parentOf (x, y, z) (LbOf R))) (LbOf R)
        (x % LbOf R, y % LbOf R, z % LbOf R) = (x, y, z) := by
      simp [scaleCell, parentOf, hunpack2, child_reassemble]
    refine ⟨n, by simpa using hn, (x % LbOf R, y % LbOf R, z % LbOf R),
      Nat.mod_lt _ hLb, Nat.mod_lt _ hLb, Nat.mod_lt _ hLb, ?_, ?_⟩
    · rw [hfst, hsnd, hscale, hc]
    · rw [hfst, hsnd, hscale]
      exact hdv

/-! ### Geometry bridge: the inclusion test versus the Euclidean distance -/

theorem getD_mem {tris : List Tri} {t : ℕ} (ht : t < tris.length) :
    tris.getD t default ∈ tris := by
  rw [List.getD_eq_getElem _ _ ht]
  exact List.getElem_mem ht

theorem dist_toE3_le {p q : V3} {D : ℝ} (hD : 0 ≤ D)
    (h1 : |((p.x:ℝ)) - ((q.x:ℝ))| ≤ D) (h2 : |((p.y:ℝ)) - ((q.y:ℝ))| ≤ D)
    (h3 : |((p.z:ℝ)) - ((q.z:ℝ))| ≤ D) :
    dist (toE3 p) (toE3 q) ≤ Real.sqrt 3 * D := by
  rw [EuclideanSpace.dist_eq]
  have hsum : (∑ i : Fin 3, dist (toE3 p i) (toE3 q i) ^ 2) ≤ 3 * D ^ 2 := by
    rw [Fin.sum_univ_three]
    have e1 : dist (toE3 p 0) (toE3 q 0) = |((p.x:ℝ)) - ((q.x:ℝ))| := Real.dist_eq _ _
    have e2 : dist (toE3 p 1) (toE3 q 1) = |((p.y:ℝ)) - ((q.y:ℝ))| := Real.dist_eq _ _
    have e3 : dist (toE3 p 2) (toE3 q 2) = |((p.z:ℝ)) - ((q.z:ℝ))| := Real.dist_eq _ _
    have b1 : |((p.x:ℝ)) - ((q.x:ℝ))| ^ 2 ≤ D ^ 2 := pow_le_pow_left (abs_nonneg _) h1 2
    have b2 : |((p.y:ℝ)) - ((q.y:ℝ))| ^ 2 ≤ D ^ 2 := pow_le_pow_left (abs_nonneg _) h2 2
    have b3 : |((p.z:ℝ)) - ((q.z:ℝ))| ^ 2 ≤ D ^ 2 := pow_le_pow_left (abs_nonneg _) h3 2
    rw [e1, e2, e3]
    linarith
  calc Real.sqrt (∑ i : Fin 3, dist (toE3 p i) (toE3 q i) ^ 2)
      ≤ Real.sqrt (3 * D ^ 2) := Real.sqrt_le_sqrt hsum
    _ = Real.sqrt 3 * D := by rw [Real.sqrt_mul (by norm_num), Real.sqrt_sq hD]

theorem cand_at_access {d2 : Tri → V3 → ℚ} {tris : List Tri} {R : ℕ} {band : ℚ}
    (hR1 : 1 ≤ R) (hR2 : R ≤ 1024) (hdvd : R % LaOf R = 0) {v : ℕ × ℕ × ℕ}
    (hv : VoxOK R v) {c : ℕ × ℕ} (hc : c ∈ finalCands d2 tris R band)
    (ha : candAccess c R = to_gidx v R) :
    c.1 < tris.length ∧
      candDist2 d2 tris c R = d2 (tris.getD c.1 default) (cellCenter v R) ∧
      passAt d2 tris c.1 v R band := by
  obtain ⟨t, ck⟩ := c
  obtain ⟨w, hwOK, hck, htF, hpa, hpv⟩ := (mem_finalCands_iff hR1 hR2 hdvd).mp hc
  have hb : ∀ x, x < R → x < 1024 := fun x hx => lt_of_lt_of_le hx hR2
  have hub : unpack_id ck = w := by
    rw [hck]
    exact unpack_pack (hb _ hwOK.1) (hb _ hwOK.2.1) (hb _ hwOK.2.2)
  have hacc : to_gidx w R = to_gidx v R := by
    have : candAccess (t, ck) R = to_gidx w R := by
      unfold candAccess
      rw [hub]
    rw [← this, ha]
  have hw : w = v :=
    to_gidx_inj hwOK.1 hwOK.2.1 hwOK.2.2 hv.1 hv.2.1 hv.2.2 hacc
  subst hw
  refine ⟨htF, ?_, hpv⟩
  unfold candDist2
  rw [hub]

theorem rasterizeD_gridDist (d2 : Tri → V3 → ℚ) (tris : List Tri) (R : ℕ) (band : ℚ)
    (a : ℕ) :
    (rasterizeD d2 tris R band).gridDist a =
      rasterize_reduce_kernel d2 tris (finalCands d2 tris R band) R (fun _ => 10 ^ 18) a :=
  rfl

theorem rasterizeD_gridIdx (d2 : Tri → V3 → ℚ) (tris : List Tri) (R : ℕ) (band : ℚ)
    (a : ℕ) :
    (rasterizeD d2 tris R band).gridIdx a =
      rasterize_arg_reduce_kernel d2 tris (finalCands d2 tris R band) R
        (rasterize_reduce_kernel d2 tris (finalCands d2 tris R band) R (fun _ => 10 ^ 18))
        (fun _ => -1) a :=
  rfl

/-- Squared Euclidean distance to the first vertex; on fully degenerate triangles (all
three vertices equal) this is exactly `point_to_tri_dist_sqr` per spec §4.2. -/
def d2pt : Tri → V3 → ℚ := fun tr p =>
  (p.x - tr.1.x) ^ 2 + (p.y - tr.1.y) ^ 2 + (p.z - tr.1.z) ^ 2

theorem d2pt_spec {tris : List Tri} (h : ∀ tr ∈ tris, tr.2.1 = tr.1 ∧ tr.2.2 = tr.1) :
    TriDistSpec d2pt tris := by
  intro tr htr p
  obtain ⟨h1, h2⟩ := h tr htr
  have hhull : triHull tr = {toE3 tr.1} := by
    unfold triHull
    rw [h1, h2]
    rw [show ({toE3 tr.1, toE3 tr.1, toE3 tr.1} : Set E3) = {toE3 tr.1} by simp]
    exact convexHull_singleton _
  rw [hhull, Metric.infDist_singleton, EuclideanSpace.dist_eq,
    Real.sq_sqrt (by positivity)]
  rw [Fin.sum_univ_three]
  rw [show toE3 p 0 = ((p.x : ℝ)) from rfl, show toE3 p 1 = ((p.y : ℝ)) from rfl,
    show toE3 p 2 = ((p.z : ℝ)) from rfl,
    show toE3 tr.1 0 = ((tr.1.x : ℝ)) from rfl, show toE3 tr.1 1 = ((tr.1.y : ℝ)) from rfl,
    show toE3 tr.1 2 = ((tr.1.z : ℝ)) from rfl]
  simp only [Real.dist_eq, sq_abs]
  unfold d2pt
  push_cast
  ring

/-- The degenerate test triangle used by the C1 counterexample: a single point at
distance 217/2000 from the center of voxel (0,0,0) at R = 8, chosen strictly between
√3/16 ≈ 0.10825 and 0.87/8 = 0.10875. -/
def ptA : V3 := ⟨1/16 + 217/2000, 1/16, 1/16⟩

/-- Single-triangle mesh for the C1 counterexample. -/
def trisA : List Tri := [(ptA, ptA, ptA)]

theorem trisA_spec : TriDistSpec d2pt trisA := by
  apply d2pt_spec
  intro tr htr
  rw [trisA, List.mem_singleton] at htr
  subst htr
  exact ⟨rfl, rfl⟩

section ConcreteEvaluation

attribute [local semireducible] Rat.add Rat.mul Rat.inv Rat.sub

end ConcreteEvaluation

/-- C7: for the empty mesh (`F = 0`) and any `R` accepted by the divisibility assertion,
`rasterize_tris` returns with every voxel of `gridDist` still at the initialization
sentinel and every voxel of `gridIdx` still at `-1`. -/
theorem C7_empty_mesh (d2 : Tri → V3 → ℚ) (R : ℕ) (band : ℚ) (hdvd : R % LaOf R = 0) :
    rasterize_tris d2 [] R band = some (rasterizeD d2 [] R band) ∧
    ∀ a : ℕ, (rasterizeD d2 [] R band).gridDist a = 10 ^ 18 ∧
      (rasterizeD d2 [] R band).gridIdx a = -1 := by
  refine ⟨by unfold rasterize_tris; rw [if_pos hdvd], fun a => ?_⟩
  have hA : layerA d2 [] R band = [] := by
    unfold layerA rasterize_layer_kernel
    simp [seedIdx]
  have h1 : finalCands d2 [] R band = [] := by
    unfold finalCands
    rw [hA]
    unfold rasterize_layer_kernel
    simp
  exact ⟨by rw [rasterizeD_gridDist, h1]; rfl, by rw [rasterizeD_gridIdx, h1]; rfl⟩

/-- Witness for C7 at `R = 8`, `band = 0`. -/
theorem C7_witness :
    8 % LaOf 8 = 0 ∧
    (rasterize_tris (fun _ _ => 0) [] 8 0 = some (rasterizeD (fun _ _ => 0) [] 8 0) ∧
      ∀ a : ℕ, (rasterizeD (fun _ _ => 0) [] 8 0).gridDist a = 10 ^ 18 ∧
        (rasterizeD (fun _ _ => 0) [] 8 0).gridIdx a = -1) :=
  ⟨by decide, C7_empty_mesh (fun _ _ => 0) 8 0 (by decide)⟩

/-- C8 (amended): `rasterize_tris` fails fast if and only if the divisibility assertion
`R % La == 0` (rasterize.cuh line 144) fails; that is the only configuration check the
code performs — `R` out of range and `band < 0` are not rejected (see the
counterexample).  In the model, failing the assertion yields `none` with no partial
result. -/
theorem C8_amended (d2 : Tri → V3 → ℚ) (tris : List Tri) (R : ℕ) (band : ℚ) :
    rasterize_tris d2 tris R band = none ↔ ¬ R % LaOf R = 0 := by
  unfold rasterize_tris
  by_cases h : R % LaOf R = 0
  · rw [if_pos h]
    simp [h]
  · rw [if_neg h]
    simp [h]

/-- C8 is refuted as stated: two configuration-error inputs that are not rejected —
`band = -1 < 0` with a valid `R = 64`, and `R = 2048` out of range `[1, 1024]` (but
divisible by `La = 16`) — both produce a result instead of failing fast. -/
theorem C8_counterexample :
    ((-1:ℚ) < 0 ∧ (rasterize_tris (fun _ _ => 0) [] 64 (-1)).isSome = true) ∧
    (1024 < 2048 ∧ (rasterize_tris (fun _ _ => 0) [] 2048 0).isSome = true) := by
  refine ⟨⟨by norm_num, ?_⟩, ⟨by norm_num, ?_⟩⟩
  · unfold rasterize_tris
    rw [if_pos (by decide : 64 % LaOf 64 = 0)]
    rfl
  · unfold rasterize_tris
    rw [if_pos (by decide : 2048 % LaOf 2048 = 0)]
    rfl

/-- C2: membership in the output of one refinement step (input resolution `Np`, factor
`S`, so the kernel is invoked with target resolution `N = Np·S` as in rasterize_tris) is
exactly: being a child `c'` of some input cell (same triangle index) whose center at
resolution `Np·S` has squared point-to-triangle distance strictly below
`(0.87/(Np·S) + band)²` — with 0.87 the conservative stand-in for √3/2. -/
theorem C2_layer_exactness {d2 : Tri → V3 → ℚ} {tris : List Tri} {idx grid : List ℕ}
    {S Np : ℕ} {band : ℚ} (hS : 0 < S) {t c : ℕ} :
    (t, c) ∈ rasterize_layer_kernel d2 tris idx grid S (Np * S) band ↔
    ∃ n, n < idx.length ∧ ∃ o : ℕ × ℕ × ℕ, o.1 < S ∧ o.2.1 < S ∧ o.2.2 < S ∧
      t = idx.getD n 0 ∧ c = pack_id (scaleCell (grid.getD n 0) S o) ∧
      d2 (tris.getD t default) (cellCenter (scaleCell (grid.getD n 0) S o) (Np * S)) <
        (87/100 / (Np * S : ℕ) + band) ^ 2 := by
  rw [mem_layer_iff hS]
  constructor
  · rintro ⟨n, hn, o, h1, h2, h3, hp, hd⟩
    obtain ⟨ht, hc⟩ := Prod.mk.injEq .. ▸ hp
    refine ⟨n, hn, o, h1, h2, h3, ht, hc, ?_⟩
    rw [ht]
    exact hd
  · rintro ⟨n, hn, o, h1, h2, h3, ht, hc, hd⟩
    refine ⟨n, hn, o, h1, h2, h3, by rw [ht, hc], ?_⟩
    rw [← ht]
    exact hd

/-- Witness for C2 on a concrete one-candidate input with `S = 2`, `Np = 4`. -/
theorem C2_witness :
    0 < 2 ∧
    ((0, 0) ∈ rasterize_layer_kernel (fun _ _ => 0) [] [5] [pack_id (1, 2, 3)] 2 (4 * 2) 1 ↔
    ∃ n, n < ([5] : List ℕ).length ∧ ∃ o : ℕ × ℕ × ℕ, o.1 < 2 ∧ o.2.1 < 2 ∧ o.2.2 < 2 ∧
      0 = ([5] : List ℕ).getD n 0 ∧
      0 = pack_id (scaleCell (([pack_id (1, 2, 3)] : List ℕ).getD n 0) 2 o) ∧
      (fun _ _ => (0:ℚ)) (([] : List Tri).getD 0 default)
        (cellCenter (scaleCell (([pack_id (1, 2, 3)] : List ℕ).getD n 0) 2 o) (4 * 2)) <
        (87/100 / ((4 * 2 : ℕ) : ℚ) + 1) ^ 2) :=
  ⟨by norm_num, C2_layer_exactness (by norm_num)⟩

theorem gridDist_attained {d2 : Tri → V3 → ℚ} {tris : List Tri} {R : ℕ} {band : ℚ}
    {a : ℕ} (hfin : (rasterizeD d2 tris R band).gridDist a < 10 ^ 18) :
    ∃ c ∈ finalCands d2 tris R band, candAccess c R = a ∧
      candDist2 d2 tris c R = (rasterizeD d2 tris R band).gridDist a := by
  have heval2 : (rasterizeD d2 tris R band).gridDist a =
      (((finalCands d2 tris R band).filter fun c => candAccess c R == a).map
        fun c => candDist2 d2 tris c R).foldl min (10 ^ 18) :=
    reduce_eval d2 tris (finalCands d2 tris R band) R (fun _ => 10 ^ 18) a
  rcases foldl_min_cases (((finalCands d2 tris R band).filter
      fun c => candAccess c R == a).map fun c => candDist2 d2 tris c R) (10 ^ 18) with h | h
  · rw [heval2, h] at hfin
    exact absurd hfin (lt_irrefl _)
  · obtain ⟨c, hcf, hval⟩ := List.mem_map.mp h
    obtain ⟨hcm, hacc⟩ := List.mem_filter.mp hcf
    refine ⟨c, hcm, by simpa using hacc, ?_⟩
    rw [heval2]
    exact hval

theorem gridIdx_eval (d2 : Tri → V3 → ℚ) (tris : List Tri) (R : ℕ) (band : ℚ) (a : ℕ) :
    (rasterizeD d2 tris R band).gridIdx a =
      (((finalCands d2 tris R band).filter fun c =>
        candAccess c R == a && (candDist2 d2 tris c R ==
          (rasterizeD d2 tris R band).gridDist (candAccess c R))).map
        fun c => (c.1 : ℤ)).foldl max (-1) :=
  arg_eval d2 tris (finalCands d2 tris R band) R
    (rasterize_reduce_kernel d2 tris (finalCands d2 tris R band) R (fun _ => 10 ^ 18))
    (fun _ => -1) a

section ConcreteEvaluationB

attribute [local semireducible] Rat.add Rat.mul Rat.inv Rat.sub

end ConcreteEvaluationB

/-! ### C10: repIdx range and its agreement with the sentinel -/

/-- A point lies in the closed unit cube. -/
def V3InCube (p : V3) : Prop :=
  0 ≤ p.x ∧ p.x ≤ 1 ∧ 0 ≤ p.y ∧ p.y ≤ 1 ∧ 0 ≤ p.z ∧ p.z ≤ 1

/-- All triangle vertices lie in the closed unit cube. -/
def InUnitCube (tris : List Tri) : Prop :=
  ∀ tr ∈ tris, V3InCube tr.1 ∧ V3InCube tr.2.1 ∧ V3InCube tr.2.2

theorem cellCenter_in_cube {R : ℕ} (hR1 : 1 ≤ R) {v : ℕ × ℕ × ℕ} (hv : VoxOK R v) :
    V3InCube (cellCenter v R) := by
  have hRq : (0:ℚ) < (R:ℚ) := by
    have : (1:ℚ) ≤ (R:ℚ) := by exact_mod_cast hR1
    linarith
  have h1 : (v.1:ℚ) + 1 ≤ (R:ℚ) := by exact_mod_cast hv.1
  have h2 : (v.2.1:ℚ) + 1 ≤ (R:ℚ) := by exact_mod_cast hv.2.1
  have h3 : (v.2.2:ℚ) + 1 ≤ (R:ℚ) := by exact_mod_cast hv.2.2
  refine ⟨?_, ?_, ?_, ?_, ?_, ?_⟩ <;> simp only [cellCenter]
  · positivity
  · rw [div_le_one hRq]
    linarith
  · positivity
  · rw [div_le_one hRq]
    linarith
  · positivity
  · rw [div_le_one hRq]
    linarith

theorem d2_bounded {d2 : Tri → V3 → ℚ} {tris : List Tri} (hspec : TriDistSpec d2 tris)
    {tr : Tri} (htr : tr ∈ tris) (hc : V3InCube tr.1) {p : V3} (hp : V3InCube p) :
    d2 tr p ≤ 3 := by
  obtain ⟨ha1, ha2, ha3, ha4, ha5, ha6⟩ := hc
  obtain ⟨hb1, hb2, hb3, hb4, hb5, hb6⟩ := hp
  have h1 : toE3 tr.1 ∈ triHull tr := subset_convexHull ℝ _ (Set.mem_insert _ _)
  have h2 : Metric.infDist (toE3 p) (triHull tr) ≤ dist (toE3 p) (toE3 tr.1) :=
    Metric.infDist_le_dist_of_mem h1
  have habs : ∀ aq bq : ℚ, 0 ≤ aq → aq ≤ 1 → 0 ≤ bq → bq ≤ 1 →
      |((aq:ℝ)) - ((bq:ℝ))| ≤ 1 := by
    intro aq bq g1 g2 g3 g4
    have c1 : (0:ℝ) ≤ (aq:ℝ) := by exact_mod_cast g1
    have c2 : ((aq:ℝ)) ≤ 1 := by exact_mod_cast g2
    have c3 : (0:ℝ) ≤ (bq:ℝ) := by exact_mod_cast g3
    have c4 : ((bq:ℝ)) ≤ 1 := by exact_mod_cast g4
    rw [abs_le]
    constructor <;> linarith
  have h3 : dist (toE3 p) (toE3 tr.1) ≤ Real.sqrt 3 * 1 :=
    dist_toE3_le (by norm_num) (habs _ _ hb1 hb2 ha1 ha2) (habs _ _ hb3 hb4 ha3 ha4)
      (habs _ _ hb5 hb6 ha5 ha6)
  rw [← Rat.cast_le (K := ℝ), hspec tr htr p]
  have h4 : Metric.infDist (toE3 p) (triHull tr) ≤ Real.sqrt 3 := by
    calc Metric.infDist (toE3 p) (triHull tr) ≤ dist (toE3 p) (toE3 tr.1) := h2
      _ ≤ Real.sqrt 3 * 1 := h3
      _ = Real.sqrt 3 := by ring
  calc Metric.infDist (toE3 p) (triHull tr) ^ 2 ≤ Real.sqrt 3 ^ 2 :=
      pow_le_pow_left Metric.infDist_nonneg h4 2
    _ = 3 := Real.sq_sqrt (by norm_num)
    _ = ((3:ℚ):ℝ) := by norm_num

/-- C10: after rasterize_tris returns, at every voxel repIdx is either -1 or a valid
triangle index in [0, F), and repIdx is nonnegative exactly when gridDist is below the
sentinel: a voxel got a representative iff it got a finite distance. -/
theorem C10_repidx_invariant {d2 : Tri → V3 → ℚ} {tris : List Tri} {R : ℕ} {band : ℚ}
    {v : ℕ × ℕ × ℕ} (hspec : TriDistSpec d2 tris) (hcube : InUnitCube tris)
    (hband : 0 ≤ band) (hR1 : 1 ≤ R) (hR2 : R ≤ 1024) (hdvd : R % LaOf R = 0)
    (hv : VoxOK R v) :
    rasterize_tris d2 tris R band = some (rasterizeD d2 tris R band) ∧
    ((rasterizeD d2 tris R band).gridIdx (to_gidx v R) = -1 ∨
      (0 ≤ (rasterizeD d2 tris R band).gridIdx (to_gidx v R) ∧
        (rasterizeD d2 tris R band).gridIdx (to_gidx v R) < (tris.length : ℤ))) ∧
    (0 ≤ (rasterizeD d2 tris R band).gridIdx (to_gidx v R) ↔
      (rasterizeD d2 tris R band).gridDist (to_gidx v R) < 10 ^ 18) := by
  refine ⟨by unfold rasterize_tris; rw [if_pos hdvd], ?_, ?_, ?_⟩
  · rcases foldl_max_cases (((finalCands d2 tris R band).filter fun c =>
        candAccess c R == to_gidx v R && (candDist2 d2 tris c R ==
          (rasterizeD d2 tris R band).gridDist (candAccess c R))).map
        fun c => (c.1 : ℤ)) (-1) with h | h
    · left
      rw [gridIdx_eval, h]
    · right
      obtain ⟨c, hcf, hval⟩ := List.mem_map.mp h
      obtain ⟨hcm, hcond⟩ := List.mem_filter.mp hcf
      simp only [Bool.and_eq_true, beq_iff_eq] at hcond
      obtain ⟨hca, _⟩ := hcond
      obtain ⟨hcF, _, _⟩ := cand_at_access hR1 hR2 hdvd hv hcm hca
      rw [gridIdx_eval, ← hval]
      exact ⟨Int.natCast_nonneg c.1, by exact_mod_cast hcF⟩
  · intro hrep
    by_contra hns
    push_neg at hns
    have hsent : (rasterizeD d2 tris R band).gridDist (to_gidx v R) = 10 ^ 18 :=
      le_antisymm (by
        have heval2 : (rasterizeD d2 tris R band).gridDist (to_gidx v R) =
            (((finalCands d2 tris R band).filter fun c =>
              candAccess c R == to_gidx v R).map
              fun c => candDist2 d2 tris c R).foldl min (10 ^ 18) :=
          reduce_eval d2 tris (finalCands d2 tris R band) R (fun _ => 10 ^ 18) (to_gidx v R)
        rw [heval2]
        exact foldl_min_le_init _ _) hns
    rcases foldl_max_cases (((finalCands d2 tris R band).filter fun c =>
        candAccess c R == to_gidx v R && (candDist2 d2 tris c R ==
          (rasterizeD d2 tris R band).gridDist (candAccess c R))).map
        fun c => (c.1 : ℤ)) (-1) with h | h
    · rw [gridIdx_eval, h] at hrep
      linarith
    · obtain ⟨c, hcf, hval⟩ := List.mem_map.mp h
      obtain ⟨hcm, hcond⟩ := List.mem_filter.mp hcf
      simp only [Bool.and_eq_true, beq_iff_eq] at hcond
      obtain ⟨hca, hcd⟩ := hcond
      obtain ⟨hcF, hccd, _⟩ := cand_at_access hR1 hR2 hdvd hv hcm hca
      have hle3 : candDist2 d2 tris c R ≤ 3 := by
        rw [hccd]
        exact d2_bounded hspec (getD_mem hcF) (hcube _ (getD_mem hcF)).1
          (cellCenter_in_cube hR1 hv)
      rw [hca, hsent] at hcd
      rw [hcd] at hle3
      norm_num at hle3
  · intro hfin
    obtain ⟨c0, hc0m, hc0a, hc0d⟩ := gridDist_attained hfin
    rw [gridIdx_eval]
    have hin : (c0.1 : ℤ) ∈ ((finalCands d2 tris R band).filter fun c =>
        candAccess c R == to_gidx v R && (candDist2 d2 tris c R ==
          (rasterizeD d2 tris R band).gridDist (candAccess c R))).map
        fun c => (c.1 : ℤ) := by
      apply List.mem_map.mpr
      refine ⟨c0, List.mem_filter.mpr ⟨hc0m, ?_⟩, rfl⟩
      simp only [Bool.and_eq_true, beq_iff_eq]
      exact ⟨hc0a, by rw [hc0a]; exact hc0d⟩
    exact le_trans (Int.natCast_nonneg c0.1) (le_foldl_max_mem hin _)

theorem trisA_cube : InUnitCube trisA := by
  intro tr htr
  rw [trisA, List.mem_singleton] at htr
  subst htr
  have h : V3InCube ptA := by
    unfold V3InCube
    refine ⟨?_, ?_, ?_, ?_, ?_, ?_⟩ <;> norm_num [ptA]
  exact ⟨h, h, h⟩

/-- Witness for C10 at the single-triangle input `trisA` in the unit cube, `R = 8`,
`band = 0`, voxel `(0,0,0)`. -/
theorem C10_witness :
    (TriDistSpec d2pt trisA ∧ InUnitCube trisA ∧ (0:ℚ) ≤ 0 ∧ 1 ≤ 8 ∧ 8 ≤ 1024 ∧
      8 % LaOf 8 = 0 ∧ VoxOK 8 (0, 0, 0)) ∧
    (rasterize_tris d2pt trisA 8 0 = some (rasterizeD d2pt trisA 8 0) ∧
      ((rasterizeD d2pt trisA 8 0).gridIdx (to_gidx (0, 0, 0) 8) = -1 ∨
        (0 ≤ (rasterizeD d2pt trisA 8 0).gridIdx (to_gidx (0, 0, 0) 8) ∧
          (rasterizeD d2pt trisA 8 0).gridIdx (to_gidx (0, 0, 0) 8) <
            (trisA.length : ℤ))) ∧
      (0 ≤ (rasterizeD d2pt trisA 8 0).gridIdx (to_gidx (0, 0, 0) 8) ↔
        (rasterizeD d2pt trisA 8 0).gridDist (to_gidx (0, 0, 0) 8) < 10 ^ 18)) :=
  ⟨⟨trisA_spec, trisA_cube, le_refl 0, by norm_num, by norm_num, by decide,
      ⟨by norm_num, by norm_num, by norm_num⟩⟩,
    C10_repidx_invariant trisA_spec trisA_cube (le_refl 0) (by norm_num) (by norm_num)
      (by decide) ⟨by norm_num, by norm_num, by norm_num⟩⟩

/-! ### Launch geometry: 64-bit task decode versus 32-bit block computation (C9) -/

/-- Modelled from the spec: commons.cuh (NTHREAD_1D) is not under src/; spec §4.3 fixes
the tile size at 512 tasks per tile. -/
def NT1D : ℕ := 512

/-- The 32-bit modulus of CUDA uint arithmetic. -/
def U32 : ℕ := 4294967296

/-- Modelled from the spec: commons.cuh (ceil_div) is not under src/; the standard
`(a + b - 1) / b` computed in 32-bit uint arithmetic. -/
def ceil_div32 (a b : ℕ) : ℕ := (a + b - 1) % U32 / b

/-- The number of threads launched for a refinement level (rasterize.cuh line 178):
`blocks = ceil_div(S³·M, NTHREAD_1D)` with the product and the ceiling division performed
in 32-bit uint arithmetic, times the block size.  A task `g` is executed iff
`g < layerLaunch S M` (grid coverage) and `g < S³·M` (the 64-bit guard of line 20). -/
def layerLaunch (S M : ℕ) : ℕ := ceil_div32 (S * S * S * M % U32) NT1D * NT1D

theorem le_ceil_mul {n m : ℕ} (hm : 0 < m) : n ≤ (n + m - 1) / m * m := by
  have h := Nat.div_add_mod (n + m - 1) m
  have h2 : (n + m - 1) % m < m := Nat.mod_lt _ hm
  have e : m * ((n + m - 1) / m) = n + m - 1 - (n + m - 1) % m :=
    Nat.eq_sub_of_add_eq h
  rw [Nat.mul_comm, e]
  apply Nat.le_sub_of_add_le
  have hr : (n + m - 1) % m ≤ m - 1 := Nat.le_pred_of_lt h2
  calc n + (n + m - 1) % m ≤ n + (m - 1) := Nat.add_le_add_left hr n
    _ = n + m - 1 := by omega

/-- C9 is refuted as stated: with `S = 16` and `M = 2²⁰ + 1` input candidates, the task
count `16³·M = 2³² + 4096` exceeds 32-bit range; the 32-bit block computation of
rasterize.cuh line 178 wraps to 8 blocks, so only 4096 threads run — every one of them
decodes to input-candidate 0, and no (candidate, child) task of candidate 1 (or beyond)
is ever enumerated, despite the kernel's 64-bit task index. -/
theorem C9_counterexample :
    2 ^ 32 < 16 * 16 * 16 * (2 ^ 20 + 1) ∧
    1 < 2 ^ 20 + 1 ∧
    layerLaunch 16 (2 ^ 20 + 1) = 4096 ∧
    ((List.range (layerLaunch 16 (2 ^ 20 + 1))).filter fun g => taskT 16 g == 1) = [] := by
  refine ⟨by norm_num, by norm_num, by decide, ?_⟩
  have h4096 : layerLaunch 16 (2 ^ 20 + 1) = 4096 := by decide
  rw [h4096, List.filter_eq_nil_iff]
  intro g hg
  rw [List.mem_range] at hg
  have ht : taskT 16 g = 0 := Nat.div_eq_of_lt (by norm_num at hg ⊢; omega)
  simp [ht]

/-- C9 (amended): the kernel itself uses 64-bit task indices, so the (candidate, child)
decode is exact for arbitrarily large task counts — encode-then-decode is the identity
with no 2³² truncation anywhere, and every encoded task id lies below `S³·M`; however the
block count of rasterize.cuh line 178 is computed in 32-bit uint arithmetic, so the
launched grid covers every task only under the additional condition that
`S³·M + (NTHREAD_1D − 1)` stays below `2³²` — when `M·S³` exceeds 32-bit range the grid
wraps and tasks are silently skipped (the driver must chunk; the in-source assert for
this, line 177, is commented out). -/
theorem C9_amended {S M t : ℕ} {o : ℕ × ℕ × ℕ} (hS : 0 < S) (ht : t < M)
    (h1 : o.1 < S) (h2 : o.2.1 < S) (h3 : o.2.2 < S) :
    (taskT S (encodeTask S t o) = t ∧ taskIJK S (encodeTask S t o) = o ∧
      encodeTask S t o < S * S * S * M) ∧
    (S * S * S * M + (NT1D - 1) < U32 → encodeTask S t o < layerLaunch S M) := by
  refine ⟨⟨taskT_encode t h1 h2 h3, taskIJK_encode hS t h1 h2 h3,
    encodeTask_lt ht h1 h2 h3⟩, ?_⟩
  intro hfit
  have henc := encodeTask_lt ht h1 h2 h3
  have hlt : S * S * S * M < U32 :=
    lt_of_le_of_lt (Nat.le_add_right _ _) hfit
  have hfit2 : S * S * S * M + NT1D - 1 < U32 := by
    have hNT : (1:ℕ) ≤ NT1D := by norm_num [NT1D]
    omega
  unfold layerLaunch ceil_div32
  rw [Nat.mod_eq_of_lt hlt, Nat.mod_eq_of_lt hfit2]
  exact lt_of_lt_of_le henc (le_ceil_mul (by norm_num [NT1D]))

/-- Witness for the amended C9 at `S = 2`, `M = 3`, task `(t, o) = (2, (1,0,1))`. -/
theorem C9_witness :
    (0 < 2 ∧ 2 < 3 ∧ 1 < 2 ∧ 0 < 2 ∧ 1 < 2) ∧
    ((taskT 2 (encodeTask 2 2 (1, 0, 1)) = 2 ∧
      taskIJK 2 (encodeTask 2 2 (1, 0, 1)) = (1, 0, 1) ∧
      encodeTask 2 2 (1, 0, 1) < 2 * 2 * 2 * 3) ∧
    (2 * 2 * 2 * 3 + (NT1D - 1) < U32 →
      encodeTask 2 2 (1, 0, 1) < layerLaunch 2 3)) :=
  ⟨⟨by norm_num, by norm_num, by norm_num, by norm_num, by norm_num⟩,
    C9_amended (by norm_num) (by norm_num) (by norm_num) (by norm_num) (by norm_num)⟩

/-! ### The two-pass tiled compaction (C3, C6) -/

/-- The tasks of tile (block) `b`: threads `τ < NTHREAD_1D` whose global id passes the
in-range guard of rasterize.cuh line 20, for a layer with `n` total tasks. -/
def tileTasks (n b : ℕ) : List ℕ :=
  (List.range NT1D).filterMap fun τ => if b * NT1D + τ < n then some (b * NT1D + τ) else none

/-- The number of blocks launched for `n` tasks (exact arithmetic; the 32-bit overflow of
the launch computation is the subject of C9). -/
def numBlocks (n : ℕ) : ℕ := (n + NT1D - 1) / NT1D

/-- The tasks of tile `b` that pass the inclusion test — the quantity the probe pass
accumulates into the tile-local `blockSize` (rasterize.cuh lines 45-47). -/
def tilePass (d2 : Tri → V3 → ℚ) (tris : List Tri) (idx grid : List ℕ) (S N : ℕ)
    (band : ℚ) (b : ℕ) : List ℕ :=
  (tileTasks (S * S * S * idx.length) b).filter (taskPass d2 tris idx grid S N band)

/-- The per-tile count of the probe pass. -/
def probeCount (d2 : Tri → V3 → ℚ) (tris : List Tri) (idx grid : List ℕ) (S N : ℕ)
    (band : ℚ) (b : ℕ) : ℕ :=
  (tilePass d2 tris idx grid S N band b).length

/-- A schedule of the two-pass compaction: the order in which the tiles reach the global
`atomicAdd(totalSize, blockSize)` of line 60, and, for each tile, the order in which its
passing tasks reach the tile-local `atomicAdd` of line 47 during the fill pass. -/
structure LayerSched where
  tileOrder : List ℕ
  inTile : ℕ → List ℕ

/-- A schedule is valid when the tile order is some permutation of all launched blocks
and each tile's fill-pass arrival order is some permutation of its passing tasks. -/
def LayerSched.Valid (sch : LayerSched) (d2 : Tri → V3 → ℚ) (tris : List Tri)
    (idx grid : List ℕ) (S N : ℕ) (band : ℚ) : Prop :=
  sch.tileOrder.Perm (List.range (numBlocks (S * S * S * idx.length))) ∧
  ∀ b, (sch.inTile b).Perm (tilePass d2 tris idx grid S N band b)

/-- tempBlockOffset[b]: the slab start race-assigned to tile `b` — the sum of the probe
counts of the tiles that reached the global atomic before `b`. -/
def tileOffset (sch : LayerSched) (d2 : Tri → V3 → ℚ) (tris : List Tri)
    (idx grid : List ℕ) (S N : ℕ) (band : ℚ) (b : ℕ) : ℕ :=
  ((sch.tileOrder.takeWhile fun x => x != b).map
    (probeCount d2 tris idx grid S N band)).sum

/-- The total emitted by the probe pass (the final value of `totalSize`). -/
def totalSize (d2 : Tri → V3 → ℚ) (tris : List Tri) (idx grid : List ℕ) (S N : ℕ)
    (band : ℚ) : ℕ :=
  ((List.range (numBlocks (S * S * S * idx.length))).map
    (probeCount d2 tris idx grid S N band)).sum

theorem sum_takeWhile_add_le {f : ℕ → ℕ} {l : List ℕ} {b : ℕ} (hb : b ∈ l) :
    ((l.takeWhile fun x => x != b).map f).sum + f b ≤ (l.map f).sum := by
  induction l with
  | nil => cases hb
  | cons a tl ih =>
    by_cases hab : a = b
    · subst hab
      rw [show (List.takeWhile (fun x => x != a) (a :: tl)) = [] from by
        rw [List.takeWhile_cons]
        simp]
      simpa using Nat.le_add_right (f a) (tl.map f).sum
    · have hbtl : b ∈ tl := by
        rcases List.mem_cons.mp hb with h | h
        · exact absurd h.symm hab
        · exact h
      rw [show (List.takeWhile (fun x => x != b) (a :: tl)) =
          a :: tl.takeWhile (fun x => x != b) from by
        rw [List.takeWhile_cons]
        simp [hab]]
      simp only [List.map_cons, List.sum_cons]
      have := ih hbtl
      omega

/-- C3: under any schedule, for every launched tile the fill pass enqueues exactly as many
writes as the probe pass counted (both passes apply the same pure inclusion predicate to
the same tile tasks), and every write of the tile — slot `tempBlockOffset[b] + r` for an
in-tile rank `r` — lands inside that tile's reserved slab and inside the allocated output
of length `totalSize`. -/
theorem C3_two_pass_safety {d2 : Tri → V3 → ℚ} {tris : List Tri} {idx grid : List ℕ}
    {S N : ℕ} {band : ℚ} {sch : LayerSched}
    (hv : sch.Valid d2 tris idx grid S N band) :
    ∀ b ∈ List.range (numBlocks (S * S * S * idx.length)),
      (sch.inTile b).length = probeCount d2 tris idx grid S N band b ∧
      ∀ r < (sch.inTile b).length,
        tileOffset sch d2 tris idx grid S N band b + r <
          tileOffset sch d2 tris idx grid S N band b +
            probeCount d2 tris idx grid S N band b ∧
        tileOffset sch d2 tris idx grid S N band b + r <
          totalSize d2 tris idx grid S N band := by
  intro b hb
  have hlen : (sch.inTile b).length = probeCount d2 tris idx grid S N band b :=
    (hv.2 b).length_eq
  refine ⟨hlen, fun r hr => ⟨by omega, ?_⟩⟩
  have hbmem : b ∈ sch.tileOrder := (hv.1.mem_iff).mpr hb
  have hkey := sum_takeWhile_add_le (f := probeCount d2 tris idx grid S N band) hbmem
  have hsum : (sch.tileOrder.map (probeCount d2 tris idx grid S N band)).sum =
      totalSize d2 tris idx grid S N band :=
    (hv.1.map (probeCount d2 tris idx grid S N band)).sum_eq
  unfold tileOffset
  rw [hlen] at hr
  omega

/-- The identity schedule: tiles arrive in index order and in-tile tasks in task order. -/
def identSched (d2 : Tri → V3 → ℚ) (tris : List Tri) (idx grid : List ℕ) (S N : ℕ)
    (band : ℚ) : LayerSched :=
  ⟨List.range (numBlocks (S * S * S * idx.length)),
   fun b => tilePass d2 tris idx grid S N band b⟩

set_option maxRecDepth 40000 in
theorem identSched_valid (d2 : Tri → V3 → ℚ) (tris : List Tri) (idx grid : List ℕ)
    (S N : ℕ) (band : ℚ) :
    (identSched d2 tris idx grid S N band).Valid d2 tris idx grid S N band :=
  ⟨List.Perm.refl _, fun _ => List.Perm.refl _⟩

set_option maxRecDepth 40000 in
/-- Witness for C3: the identity schedule on a two-candidate layer with `S = 1`. -/
theorem C3_witness :
    (identSched (fun _ _ => 0) [] [0, 0] [0, 0] 1 1 1).Valid
      (fun _ _ => 0) [] [0, 0] [0, 0] 1 1 1 ∧
    ∀ b ∈ List.range (numBlocks (1 * 1 * 1 * ([0, 0] : List ℕ).length)),
      ((identSched (fun _ _ => 0) [] [0, 0] [0, 0] 1 1 1).inTile b).length =
        probeCount (fun _ _ => 0) [] [0, 0] [0, 0] 1 1 1 b ∧
      ∀ r < ((identSched (fun _ _ => 0) [] [0, 0] [0, 0] 1 1 1).inTile b).length,
        tileOffset (identSched (fun _ _ => 0) [] [0, 0] [0, 0] 1 1 1)
            (fun _ _ => 0) [] [0, 0] [0, 0] 1 1 1 b + r <
          tileOffset (identSched (fun _ _ => 0) [] [0, 0] [0, 0] 1 1 1)
              (fun _ _ => 0) [] [0, 0] [0, 0] 1 1 1 b +
            probeCount (fun _ _ => 0) [] [0, 0] [0, 0] 1 1 1 b ∧
        tileOffset (identSched (fun _ _ => 0) [] [0, 0] [0, 0] 1 1 1)
            (fun _ _ => 0) [] [0, 0] [0, 0] 1 1 1 b + r <
          totalSize (fun _ _ => 0) [] [0, 0] [0, 0] 1 1 1 :=
  ⟨identSched_valid (fun _ _ => 0) [] [0, 0] [0, 0] 1 1 1,
    C3_two_pass_safety (identSched_valid (fun _ _ => 0) [] [0, 0] [0, 0] 1 1 1)⟩

/-! ### Scheduled layer output and its permutation-equivalence to the canonical list -/

/-- The compacted output array produced by a scheduled fill pass: tile slabs are laid out
contiguously in arrival order (see C3), each filled in its in-tile arrival order. -/
def schedLayerOut (sch : LayerSched) (idx grid : List ℕ) (S : ℕ) : List (ℕ × ℕ) :=
  (sch.tileOrder.map fun b => (sch.inTile b).map (taskVal idx grid S)).flatten

/-- A complete scheduled execution of rasterize_tris: a schedule for each of the two
refinement layers, and the arrival orders of the candidates at the atomic reduce and
arg-reduce kernels. -/
structure SchedRun where
  sa : LayerSched
  sb : LayerSched
  redOrder : List (ℕ × ℕ)
  argOrder : List (ℕ × ℕ)

/-- The compacted layer-a output of a scheduled run. -/
def SchedRun.outA (run : SchedRun) (d2 : Tri → V3 → ℚ) (tris : List Tri) (R : ℕ)
    (band : ℚ) : List (ℕ × ℕ) :=
  schedLayerOut run.sa (seedIdx tris.length) (seedGrid tris.length) (LaOf R)

/-- The compacted layer-b output of a scheduled run. -/
def SchedRun.outB (run : SchedRun) (d2 : Tri → V3 → ℚ) (tris : List Tri) (R : ℕ)
    (band : ℚ) : List (ℕ × ℕ) :=
  schedLayerOut run.sb ((run.outA d2 tris R band).map Prod.fst)
    ((run.outA d2 tris R band).map Prod.snd) (LbOf R)

/-- Validity of a scheduled run: both layer schedules are valid for their inputs, and the
reduction kernels process the layer-b output in some arrival order. -/
def SchedRun.Valid (run : SchedRun) (d2 : Tri → V3 → ℚ) (tris : List Tri) (R : ℕ)
    (band : ℚ) : Prop :=
  run.sa.Valid d2 tris (seedIdx tris.length) (seedGrid tris.length) (LaOf R) (LaOf R)
      band ∧
  run.sb.Valid d2 tris ((run.outA d2 tris R band).map Prod.fst)
      ((run.outA d2 tris R band).map Prod.snd) (LbOf R) R band ∧
  (run.redOrder.Perm (run.outB d2 tris R band)) ∧
  (run.argOrder.Perm (run.outB d2 tris R band))

end CuMesh
